import Mathlib

/-!
Verification development for the GAIN repository (`GAIN/merge_exercises.py`).

The script merges an incoming list of exercise records (`new_exercises.json`)
into a primary persisted list (`exercises.json`), keyed by the `name` field,
taking a backup of the primary file before writing.

The embedding below models:
* JSON objects (Python dicts produced by `json.load`) as association lists
  with string keys and opaque `Value` payloads, with Python `dict` semantics
  (`alGet`, `alSet`, `dictUpdate` mirroring `d[k]`, `d[k] = v`, `d.update(e)`);
* the `exercise_map` built by `{ex['name']: ex for ex in existing_data}` as an
  association list from name values to *indices* into the record list, which
  captures the reference aliasing of the Python dict (mutating the mapped
  record mutates the list entry in place);
* the filesystem as a record of the three paths the script touches
  (`exercises.json`, `exercises.json.bak`, `new_exercises.json`), each either
  absent, holding a well-formed record list, or holding malformed bytes;
* the whole `merge_exercises` function, including its two `try` blocks:
  a missing or unparsable primary file falls back to the empty list, while
  every other exception propagates to the top-level handler which reports
  a one-line error message and leaves the filesystem untouched.
-/

set_option autoImplicit false
set_option linter.unusedSectionVars false
set_option linter.unusedVariables false

namespace GAIN

/-- An opaque JSON payload value. Nested structure is irrelevant to the merge
logic, which only ever compares `name` values and copies payloads verbatim. -/
inductive Value where
  | str : String → Value
  | int : Int → Value
  | bool : Bool → Value
  deriving DecidableEq, Repr

/-- Association-list lookup, mirroring Python `d[k]` (first matching key; the
dicts produced by `json.load` never hold duplicate keys). -/
def alGet {α β : Type} [DecidableEq α] : List (α × β) → α → Option β
  | [], _ => none
  | (k, v) :: t, key => if k = key then some v else alGet t key

/-- Association-list store, mirroring Python `d[k] = v`: replace the value in
place if the key is present (key keeps its position), else append at the end
(dict insertion order). -/
def alSet {α β : Type} [DecidableEq α] : List (α × β) → α → β → List (α × β)
  | [], key, v => [(key, v)]
  | (k, w) :: t, key, v => if k = key then (key, v) :: t else (k, w) :: alSet t key v

/-- The key list of an association list, in order. -/
def keysOf {α β : Type} (m : List (α × β)) : List α := m.map Prod.fst

/-- A record: one exercise entry, a JSON object with string field names. -/
abbrev Record := List (String × Value)

/-- Python `m.update(r)` (line `exercise_map[name].update(new_ex)`): for every
field of `r` in order, overwrite the corresponding field of `m` in place, or
append it if absent. -/
def dictUpdate (m r : Record) : Record := r.foldl (fun acc e => alSet acc e.1 e.2) m

/-- Repeated `dictUpdate` of a whole list of records onto one record. -/
def foldUpd (a : Record) (bs : List Record) : Record := bs.foldl dictUpdate a

/-- The value the *last* record in `bs` holding field `k` assigns to it. -/
def writeVal : List Record → String → Option Value
  | [], _ => none
  | b :: t, k =>
    match writeVal t k with
    | some v => some v
    | none => alGet b k

/-- `exercise_map`: maps a `name` value to the index of the list entry it
aliases (Python maps names to the record objects themselves; updates through
the map mutate the list entry, which the index captures). -/
abbrev NameMap := List (Value × Nat)

/-- `{ex['name']: ex for ex in existing_data}` starting at index `i` with
accumulator `m`.  A record without a `name` field raises `KeyError`, which
only the top-level handler catches. -/
def buildMapAux : List Record → Nat → NameMap → Except String NameMap
  | [], _, m => Except.ok m
  | r :: t, i, m =>
    match alGet r "name" with
    | none => Except.error "KeyError: name"
    | some n => buildMapAux t (i + 1) (alSet m n i)

/-- The `exercise_map` dict comprehension over `existing_data`. -/
def buildMap (d : List Record) : Except String NameMap := buildMapAux d 0 []

/-- Total companion of `buildMapAux`: the same map, skipping nameless records
(used only to state invariants; coincides with `buildMap` on named lists). -/
def buildMapT : List Record → Nat → NameMap → NameMap
  | [], _, m => m
  | r :: t, i, m =>
    match alGet r "name" with
    | none => buildMapT t (i + 1) m
    | some n => buildMapT t (i + 1) (alSet m n i)

/-- Index of the last record in `d` whose `name` field is `n`, if any.
This is where a dict comprehension sends duplicate names. -/
def lastIdxOf (d : List Record) (n : Value) : Option Nat :=
  match d with
  | [] => none
  | r :: t =>
    match lastIdxOf t n with
    | some j => some (j + 1)
    | none => if alGet r "name" = some n then some 0 else none

/-- The in-memory state of the merge loop: `existing_data`, `exercise_map`,
`added_count`, `updated_count`. -/
structure MState where
  data : List Record
  map : NameMap
  added : Nat
  updated : Nat
  deriving DecidableEq, Repr

/-- One iteration of `for new_ex in new_data`.  `new_ex['name']` raises
`KeyError` when the field is missing; a hit updates the aliased record in
place, a miss appends the record as-is and registers it in the map. -/
def step (s : MState) (rec : Record) : Except String MState :=
  match alGet rec "name" with
  | none => Except.error "KeyError: name"
  | some n =>
    match alGet s.map n with
    | some i =>
      Except.ok { s with
        data := s.data.set i (dictUpdate (s.data.getD i []) rec),
        updated := s.updated + 1 }
    | none =>
      Except.ok { s with
        data := s.data ++ [rec],
        map := alSet s.map n s.data.length,
        added := s.added + 1 }

/-- The whole merge loop over `new_data`. -/
def reconcile (s : MState) : List Record → Except String MState
  | [] => Except.ok s
  | r :: t =>
    match step s r with
    | Except.error e => Except.error e
    | Except.ok s1 => reconcile s1 t

/-- Where a fixed name map sends a record: the index of the list entry that a
merge-loop iteration on `r` would mutate. -/
def routeVia (m : NameMap) (r : Record) : Option Nat :=
  match alGet r "name" with
  | none => none
  | some n => alGet m n

/-- The merge loop specialised to the case where the map never changes (no
additions): every routed record is overlaid onto the entry at its index. -/
def updFold (m : NameMap) (data : List Record) (rs : List Record) : List Record :=
  rs.foldl (fun d r =>
    match routeVia m r with
    | some i => d.set i (dictUpdate (d.getD i []) r)
    | none => d) data

/-- Contents of one file path: a JSON array of objects, or bytes that fail
JSON parsing (`json.JSONDecodeError` on load). -/
inductive Content where
  | good : List Record → Content
  | bad : String → Content
  deriving DecidableEq, Repr

/-- The three on-disk paths the script touches.  `none` models a missing file
(`FileNotFoundError` on open). -/
structure FS where
  primary : Option Content
  backup : Option Content
  incoming : Option Content
  deriving DecidableEq, Repr

/-- What the script prints: the success summary with the two counts, or the
top-level handler's one-line error message. -/
inductive Report where
  | ok : Nat → Nat → Report
  | err : String → Report
  deriving DecidableEq, Repr

/-- The inner `try`/`except (FileNotFoundError, json.JSONDecodeError)` around
loading `exercises.json`: a missing or unparsable primary store falls back to
the empty list. -/
def parseOr (c : Option Content) : List Record :=
  match c with
  | some (Content.good d) => d
  | _ => []

/-- The body of the outer `try` of `merge_exercises`, step by step: load
primary (with fallback), build `exercise_map`, load `new_exercises.json`
(failures propagate), run the merge loop, back up `exercises.json` with
`shutil.copy2` (raises `FileNotFoundError` when the primary file is absent —
the copy is unconditional in the source), then write the merged list back.
Returns the new filesystem plus `(added_count, updated_count)`. -/
def mergeInner (fs : FS) : Except String (FS × Nat × Nat) :=
  match buildMap (parseOr fs.primary) with
  | Except.error e => Except.error e
  | Except.ok m =>
    match fs.incoming with
    | none => Except.error "FileNotFoundError: new_exercises.json"
    | some (Content.bad _) => Except.error "JSONDecodeError: new_exercises.json"
    | some (Content.good idata) =>
      match reconcile { data := parseOr fs.primary, map := m, added := 0, updated := 0 } idata with
      | Except.error e => Except.error e
      | Except.ok s =>
        match fs.primary with
        | none => Except.error "FileNotFoundError: exercises.json"
        | some c =>
          Except.ok ({ primary := some (Content.good s.data),
                       backup := some c,
                       incoming := fs.incoming }, s.added, s.updated)

/-- `merge_exercises()`: the outer `try`/`except Exception` reports any
propagated error as a one-line message and leaves every file as it was;
all errors in `mergeInner` occur before any write. -/
def merge_exercises (fs : FS) : FS × Report :=
  match mergeInner fs with
  | Except.ok (fs1, a, u) => (fs1, Report.ok a u)
  | Except.error e => (fs, Report.err ("Error merging exercises: " ++ e))

/-- A record as produced by `json.load`: no duplicate field names, and (as the
script requires of every record it touches) a `name` field. -/
def recWF (r : Record) : Prop := (keysOf r).Nodup ∧ (alGet r "name").isSome = true

/-- The map sends every name to a valid index whose record carries that name. -/
def consOf (m : NameMap) (data : List Record) : Prop :=
  ∀ n i, alGet m n = some i → i < data.length ∧ alGet (data.getD i []) "name" = some n

/-- The map answers lookups exactly as a freshly built map over `data` would. -/
def mapSyncs (m : NameMap) (data : List Record) : Prop :=
  ∀ n, alGet m n = alGet (buildMapT data 0 []) n

/-- The loop invariant tying `exercise_map` to `existing_data`. -/
def inv (m : NameMap) (data : List Record) : Prop :=
  consOf m data ∧ mapSyncs m data ∧ ∀ r ∈ data, recWF r

end GAIN



namespace GAIN

section AssocLemmas

variable {α β : Type} [DecidableEq α]

theorem keysOf_nil : keysOf ([] : List (α × β)) = [] := rfl

theorem keysOf_cons (a : α) (b : β) (t : List (α × β)) :
    keysOf ((a, b) :: t) = a :: keysOf t := rfl

theorem mem_keysOf_cons {k a : α} {b : β} {t : List (α × β)} :
    k ∈ keysOf ((a, b) :: t) ↔ k = a ∨ k ∈ keysOf t := by
  rw [keysOf_cons]; exact List.mem_cons

theorem alSet_cons_hit {a : α} {b : β} {t : List (α × β)} {k : α} {v : β}
    (h : a = k) : alSet ((a, b) :: t) k v = (k, v) :: t := by
  simp [alSet, h]

theorem alSet_cons_miss {a : α} {b : β} {t : List (α × β)} {k : α} {v : β}
    (h : ¬ a = k) : alSet ((a, b) :: t) k v = (a, b) :: alSet t k v := by
  simp [alSet, h]

theorem alGet_cons_hit {a : α} {b : β} {t : List (α × β)} {k : α}
    (h : a = k) : alGet ((a, b) :: t) k = some b := by
  simp [alGet, h]

theorem alGet_cons_miss {a : α} {b : β} {t : List (α × β)} {k : α}
    (h : ¬ a = k) : alGet ((a, b) :: t) k = alGet t k := by
  simp [alGet, h]

theorem alGet_alSet (k : α) (v : β) :
    ∀ (m : List (α × β)) (k2 : α),
      alGet (alSet m k v) k2 = if k = k2 then some v else alGet m k2 := by
  intro m
  induction m with
  | nil =>
    intro k2
    by_cases h : k = k2
    · rw [show alSet ([] : List (α × β)) k v = [(k, v)] from rfl, alGet_cons_hit h, if_pos h]
    · rw [show alSet ([] : List (α × β)) k v = [(k, v)] from rfl, alGet_cons_miss h, if_neg h]
  | cons e t ih =>
    intro k2
    obtain ⟨a, b⟩ := e
    by_cases hak : a = k
    · rw [alSet_cons_hit hak]
      by_cases h : k = k2
      · rw [alGet_cons_hit h, if_pos h]
      · rw [alGet_cons_miss h, if_neg h, alGet_cons_miss (hak ▸ h)]
    · rw [alSet_cons_miss hak]
      by_cases h2 : a = k2
      · have hk2 : ¬ k = k2 := fun he => hak (h2.trans he.symm)
        rw [alGet_cons_hit h2, if_neg hk2, alGet_cons_hit h2]
      · rw [alGet_cons_miss h2, ih k2, alGet_cons_miss h2]

theorem alGet_eq_none_iff : ∀ (m : List (α × β)) (k : α),
    alGet m k = none ↔ k ∉ keysOf m := by
  intro m
  induction m with
  | nil => intro k; simp [alGet, keysOf]
  | cons e t ih =>
    intro k
    obtain ⟨a, b⟩ := e
    rw [mem_keysOf_cons]
    by_cases h : a = k
    · rw [alGet_cons_hit h]
      simp [h.symm]
    · rw [alGet_cons_miss h, ih k]
      have hka : ¬ k = a := fun he => h he.symm
      constructor
      · intro hn hor
        rcases hor with he | hm
        · exact hka he
        · exact hn hm
      · intro hn hm
        exact hn (Or.inr hm)

theorem alGet_isSome_iff (m : List (α × β)) (k : α) :
    (alGet m k).isSome = true ↔ k ∈ keysOf m := by
  rw [Option.isSome_iff_ne_none]
  constructor
  · intro h
    by_contra hk
    exact h ((alGet_eq_none_iff m k).2 hk)
  · intro h hn
    exact ((alGet_eq_none_iff m k).1 hn) h

theorem keysOf_alSet_mem (k : α) (v : β) :
    ∀ m : List (α × β), k ∈ keysOf m → keysOf (alSet m k v) = keysOf m := by
  intro m
  induction m with
  | nil => intro h; simp [keysOf] at h
  | cons e t ih =>
    intro h
    obtain ⟨a, b⟩ := e
    by_cases hak : a = k
    · rw [alSet_cons_hit hak, keysOf_cons, keysOf_cons, hak]
    · have ht : k ∈ keysOf t := by
        rcases mem_keysOf_cons.1 h with h2 | h2
        · exact absurd h2.symm hak
        · exact h2
      rw [alSet_cons_miss hak, keysOf_cons, keysOf_cons, ih ht]

theorem keysOf_alSet_not_mem (k : α) (v : β) :
    ∀ m : List (α × β), k ∉ keysOf m → keysOf (alSet m k v) = keysOf m ++ [k] := by
  intro m
  induction m with
  | nil => intro h; simp [alSet, keysOf]
  | cons e t ih =>
    intro h
    obtain ⟨a, b⟩ := e
    have hak : ¬ a = k := fun he => h (mem_keysOf_cons.2 (Or.inl he.symm))
    have ht : k ∉ keysOf t := fun he => h (mem_keysOf_cons.2 (Or.inr he))
    rw [alSet_cons_miss hak, keysOf_cons, keysOf_cons, ih ht]
    rfl

theorem mem_keysOf_alSet (m : List (α × β)) (k : α) (v : β) (k2 : α) :
    k2 ∈ keysOf (alSet m k v) ↔ k2 ∈ keysOf m ∨ k2 = k := by
  by_cases h : k ∈ keysOf m
  · rw [keysOf_alSet_mem k v m h]
    constructor
    · exact Or.inl
    · rintro (h2 | h2)
      · exact h2
      · simpa [h2] using h
  · rw [keysOf_alSet_not_mem k v m h]
    simp

theorem nodup_keysOf_alSet (m : List (α × β)) (k : α) (v : β)
    (h : (keysOf m).Nodup) : (keysOf (alSet m k v)).Nodup := by
  by_cases hk : k ∈ keysOf m
  · rw [keysOf_alSet_mem k v m hk]; exact h
  · rw [keysOf_alSet_not_mem k v m hk]
    simpa [List.nodup_append] using ⟨h, hk⟩

theorem al_ext : ∀ m m2 : List (α × β), keysOf m = keysOf m2 →
    (keysOf m).Nodup → (∀ k, alGet m k = alGet m2 k) → m = m2 := by
  intro m
  induction m with
  | nil =>
    intro m2 hk _ _
    cases m2 with
    | nil => rfl
    | cons e t =>
      obtain ⟨a2, b2⟩ := e
      rw [keysOf_nil, keysOf_cons] at hk
      exact absurd hk (by simp)
  | cons e t ih =>
    intro m2 hk hd hl
    obtain ⟨a, b⟩ := e
    cases m2 with
    | nil =>
      rw [keysOf_cons, keysOf_nil] at hk
      exact absurd hk (by simp)
    | cons e2 t2 =>
      obtain ⟨a2, b2⟩ := e2
      rw [keysOf_cons, keysOf_cons] at hk
      have ha : a = a2 := (List.cons.injEq _ _ _ _ ▸ hk).1
      subst ha
      have hkt : keysOf t = keysOf t2 := (List.cons.injEq _ _ _ _ ▸ hk).2
      have hb : b = b2 := by
        have h2 := hl a
        rw [alGet_cons_hit rfl, alGet_cons_hit rfl] at h2
        exact Option.some.inj h2
      subst hb
      rw [keysOf_cons] at hd
      have hdt : (keysOf t).Nodup := hd.of_cons
      have hna : a ∉ keysOf t := (List.nodup_cons.1 hd).1
      have hna2 : a ∉ keysOf t2 := by rw [← hkt]; exact hna
      have hlt : ∀ k, alGet t k = alGet t2 k := by
        intro k
        by_cases hka : a = k
        · subst hka
          rw [(alGet_eq_none_iff t a).2 hna, (alGet_eq_none_iff t2 a).2 hna2]
        · have h2 := hl k
          rw [alGet_cons_miss hka, alGet_cons_miss hka] at h2
          exact h2
      rw [ih t2 hkt hdt hlt]

end AssocLemmas

end GAIN

namespace GAIN

theorem dictUpdate_nil (m : Record) : dictUpdate m [] = m := rfl

theorem dictUpdate_cons (m : Record) (a : String) (b : Value) (t : Record) :
    dictUpdate m ((a, b) :: t) = dictUpdate (alSet m a b) t := rfl

theorem alGet_dictUpdate (r : Record) (hr : (keysOf r).Nodup) :
    ∀ (m : Record) (k : String),
      alGet (dictUpdate m r) k =
        match alGet r k with
        | some v => some v
        | none => alGet m k := by
  induction r with
  | nil => intro m k; rfl
  | cons e t ih =>
    intro m k
    obtain ⟨a, b⟩ := e
    rw [keysOf_cons] at hr
    have hna : a ∉ keysOf t := (List.nodup_cons.1 hr).1
    have hdt : (keysOf t).Nodup := hr.of_cons
    rw [dictUpdate_cons]
    by_cases h : a = k
    · subst h
      have htn : alGet t a = none := (alGet_eq_none_iff t a).2 hna
      rw [ih hdt, htn, alGet_cons_hit rfl, alGet_alSet, if_pos rfl]
    · rw [ih hdt, alGet_cons_miss h]
      cases ht : alGet t k with
      | some v => rfl
      | none => rw [alGet_alSet, if_neg h]

theorem mem_keysOf_dictUpdate (r : Record) :
    ∀ (m : Record) (k : String),
      k ∈ keysOf (dictUpdate m r) ↔ k ∈ keysOf m ∨ k ∈ keysOf r := by
  induction r with
  | nil => intro m k; simp [dictUpdate_nil, keysOf]
  | cons e t ih =>
    intro m k
    obtain ⟨a, b⟩ := e
    rw [dictUpdate_cons, ih, mem_keysOf_alSet, mem_keysOf_cons]
    tauto

theorem keysOf_dictUpdate_of_subset (r : Record) :
    ∀ m : Record, keysOf r ⊆ keysOf m → keysOf (dictUpdate m r) = keysOf m := by
  induction r with
  | nil => intro m _; rfl
  | cons e t ih =>
    intro m hsub
    obtain ⟨a, b⟩ := e
    have ha : a ∈ keysOf m := hsub (mem_keysOf_cons.2 (Or.inl rfl))
    have hkeq : keysOf (alSet m a b) = keysOf m := keysOf_alSet_mem a b m ha
    rw [dictUpdate_cons, ih (alSet m a b) (by
      rw [hkeq]
      intro x hx
      exact hsub (mem_keysOf_cons.2 (Or.inr hx))), hkeq]

theorem nodup_keysOf_dictUpdate (r : Record) :
    ∀ m : Record, (keysOf m).Nodup → (keysOf (dictUpdate m r)).Nodup := by
  induction r with
  | nil => intro m h; exact h
  | cons e t ih =>
    intro m h
    obtain ⟨a, b⟩ := e
    rw [dictUpdate_cons]
    exact ih (alSet m a b) (nodup_keysOf_alSet m a b h)

theorem dictUpdate_self (r : Record) (hr : (keysOf r).Nodup) : dictUpdate r r = r := by
  apply al_ext
  · exact keysOf_dictUpdate_of_subset r r (fun x hx => hx)
  · exact nodup_keysOf_dictUpdate r r hr
  · intro k
    rw [alGet_dictUpdate r hr]
    cases h : alGet r k <;> rfl

theorem foldUpd_nil (a : Record) : foldUpd a [] = a := rfl

theorem foldUpd_cons (a b : Record) (t : List Record) :
    foldUpd a (b :: t) = foldUpd (dictUpdate a b) t := rfl

theorem writeVal_cons (b : Record) (t : List Record) (k : String) :
    writeVal (b :: t) k =
      match writeVal t k with
      | some v => some v
      | none => alGet b k := rfl

theorem alGet_foldUpd : ∀ (bs : List Record), (∀ b ∈ bs, (keysOf b).Nodup) →
    ∀ (a : Record) (k : String),
      alGet (foldUpd a bs) k =
        match writeVal bs k with
        | some v => some v
        | none => alGet a k := by
  intro bs
  induction bs with
  | nil => intro _ a k; rfl
  | cons b t ih =>
    intro hb a k
    have hbn : (keysOf b).Nodup := hb b (List.mem_cons_self b t)
    have htn : ∀ x ∈ t, (keysOf x).Nodup := fun x hx => hb x (List.mem_cons_of_mem b hx)
    rw [foldUpd_cons, ih htn, writeVal_cons]
    cases ht : writeVal t k with
    | some v => rfl
    | none =>
      rw [alGet_dictUpdate b hbn]

theorem keysOf_foldUpd_of_subset : ∀ (bs : List Record) (a : Record),
    (∀ b ∈ bs, keysOf b ⊆ keysOf a) → keysOf (foldUpd a bs) = keysOf a := by
  intro bs
  induction bs with
  | nil => intro a _; rfl
  | cons b t ih =>
    intro a hb
    have h1 : keysOf (dictUpdate a b) = keysOf a :=
      keysOf_dictUpdate_of_subset b a (hb b (List.mem_cons_self b t))
    rw [foldUpd_cons, ih (dictUpdate a b) (fun x hx => by
      rw [h1]; exact hb x (List.mem_cons_of_mem b hx)), h1]

theorem mem_keysOf_foldUpd : ∀ (bs : List Record) (a : Record) (k : String),
    k ∈ keysOf (foldUpd a bs) ↔ k ∈ keysOf a ∨ ∃ b ∈ bs, k ∈ keysOf b := by
  intro bs
  induction bs with
  | nil => intro a k; simp [foldUpd_nil]
  | cons b t ih =>
    intro a k
    rw [foldUpd_cons, ih, mem_keysOf_dictUpdate]
    constructor
    · rintro ((h | h) | ⟨x, hx, hk⟩)
      · exact Or.inl h
      · exact Or.inr ⟨b, List.mem_cons_self b t, h⟩
      · exact Or.inr ⟨x, List.mem_cons_of_mem b hx, hk⟩
    · rintro (h | ⟨x, hx, hk⟩)
      · exact Or.inl (Or.inl h)
      · rcases List.mem_cons.1 hx with he | hm
        · subst he; exact Or.inl (Or.inr hk)
        · exact Or.inr ⟨x, hm, hk⟩

theorem nodup_keysOf_foldUpd : ∀ (bs : List Record) (a : Record),
    (keysOf a).Nodup → (keysOf (foldUpd a bs)).Nodup := by
  intro bs
  induction bs with
  | nil => intro a h; exact h
  | cons b t ih =>
    intro a h
    rw [foldUpd_cons]
    exact ih (dictUpdate a b) (nodup_keysOf_dictUpdate b a h)

/-- Re-applying a whole run of updates is a no-op: the overlay already holds
every field at its last written value. -/
theorem foldUpd_absorb (bs : List Record) (a : Record)
    (ha : (keysOf a).Nodup) (hb : ∀ b ∈ bs, (keysOf b).Nodup) :
    foldUpd (foldUpd a bs) bs = foldUpd a bs := by
  apply al_ext
  · apply keysOf_foldUpd_of_subset
    intro b hbm k hk
    exact (mem_keysOf_foldUpd bs a k).2 (Or.inr ⟨b, hbm, hk⟩)
  · exact nodup_keysOf_foldUpd bs (foldUpd a bs) (nodup_keysOf_foldUpd bs a ha)
  · intro k
    rw [alGet_foldUpd bs hb, alGet_foldUpd bs hb]
    cases h : writeVal bs k with
    | some v => rfl
    | none => rfl

end GAIN

namespace GAIN

section ListHelpers

variable {γ : Type}

theorem getD_cons_zero (x : γ) (t : List γ) (d : γ) : (x :: t).getD 0 d = x := rfl

theorem getD_cons_succ (x : γ) (t : List γ) (i : Nat) (d : γ) :
    (x :: t).getD (i + 1) d = t.getD i d := rfl

theorem getD_set_self : ∀ (l : List γ) (i : Nat) (x d : γ), i < l.length →
    (l.set i x).getD i d = x := by
  intro l
  induction l with
  | nil => intro i x d h; simp at h
  | cons a t ih =>
    intro i x d h
    cases i with
    | zero => rfl
    | succ j =>
      rw [List.set_cons_succ, getD_cons_succ]
      exact ih j x d (by simpa using h)

theorem getD_set_ne : ∀ (l : List γ) (i j : Nat) (x d : γ), j ≠ i →
    (l.set i x).getD j d = l.getD j d := by
  intro l
  induction l with
  | nil => intro i j x d _; simp [List.set]
  | cons a t ih =>
    intro i j x d h
    cases i with
    | zero =>
      cases j with
      | zero => exact absurd rfl h
      | succ j2 => rfl
    | succ i2 =>
      cases j with
      | zero => rfl
      | succ j2 =>
        rw [List.set_cons_succ, getD_cons_succ, getD_cons_succ]
        exact ih i2 j2 x d (fun he => h (by rw [he]))

theorem getD_append_lt : ∀ (l l2 : List γ) (i : Nat) (d : γ), i < l.length →
    (l ++ l2).getD i d = l.getD i d := by
  intro l
  induction l with
  | nil => intro l2 i d h; simp at h
  | cons a t ih =>
    intro l2 i d h
    cases i with
    | zero => rfl
    | succ j =>
      rw [List.cons_append, getD_cons_succ, getD_cons_succ]
      exact ih l2 j d (by simpa using h)

theorem getD_append_len : ∀ (l : List γ) (x d : γ), (l ++ [x]).getD l.length d = x := by
  intro l
  induction l with
  | nil => intro x d; rfl
  | cons a t ih =>
    intro x d
    rw [List.cons_append, List.length_cons, getD_cons_succ]
    exact ih x d

theorem getD_mem : ∀ (l : List γ) (i : Nat) (d : γ), i < l.length → l.getD i d ∈ l := by
  intro l
  induction l with
  | nil => intro i d h; simp at h
  | cons a t ih =>
    intro i d h
    cases i with
    | zero => exact List.mem_cons_self a t
    | succ j =>
      rw [getD_cons_succ]
      exact List.mem_cons_of_mem a (ih j d (by simpa using h))

theorem list_ext_getD (d : γ) : ∀ l l2 : List γ, l.length = l2.length →
    (∀ i, i < l.length → l.getD i d = l2.getD i d) → l = l2 := by
  intro l
  induction l with
  | nil =>
    intro l2 hlen _
    cases l2 with
    | nil => rfl
    | cons a t => simp at hlen
  | cons a t ih =>
    intro l2 hlen hget
    cases l2 with
    | nil => simp at hlen
    | cons a2 t2 =>
      have h0 : a = a2 := hget 0 (by simp)
      rw [h0, ih t2 (by simpa using hlen) (fun i hi => by
        have := hget (i + 1) (by simpa using Nat.succ_lt_succ hi)
        simpa [getD_cons_succ] using this)]

end ListHelpers

theorem lastIdxOf_nil (n : Value) : lastIdxOf [] n = none := rfl

theorem lastIdxOf_cons (r : Record) (t : List Record) (n : Value) :
    lastIdxOf (r :: t) n =
      match lastIdxOf t n with
      | some j => some (j + 1)
      | none => if alGet r "name" = some n then some 0 else none := rfl

/-- What the dict comprehension stores for each name: the index of the last
record carrying it, shifted by the running offset, falling back to the
accumulator for names that never occur. -/
theorem alGet_buildMapT : ∀ (t : List Record) (idx : Nat) (m : NameMap) (n : Value),
    alGet (buildMapT t idx m) n =
      match lastIdxOf t n with
      | some j => some (idx + j)
      | none => alGet m n := by
  intro t
  induction t with
  | nil => intro idx m n; rfl
  | cons r t2 ih =>
    intro idx m n
    rw [lastIdxOf_cons]
    cases hr : alGet r "name" with
    | none =>
      rw [show buildMapT (r :: t2) idx m = buildMapT t2 (idx + 1) m by
        simp [buildMapT, hr], ih]
      cases ht : lastIdxOf t2 n with
      | some j =>
        show some (idx + 1 + j) = some (idx + (j + 1))
        exact congrArg some (by omega)
      | none =>
        rw [if_neg (show ¬ ((none : Option Value) = some n) by simp)]
    | some n2 =>
      rw [show buildMapT (r :: t2) idx m = buildMapT t2 (idx + 1) (alSet m n2 idx) by
        simp [buildMapT, hr], ih]
      cases ht : lastIdxOf t2 n with
      | some j =>
        show some (idx + 1 + j) = some (idx + (j + 1))
        exact congrArg some (by omega)
      | none =>
        by_cases he : n2 = n
        · subst he
          rw [if_pos rfl]
          show alGet (alSet m n2 idx) n2 = some (idx + 0)
          rw [alGet_alSet, if_pos rfl]
          exact congrArg some (by omega)
        · rw [if_neg (fun h2 => he (Option.some.inj h2))]
          show alGet (alSet m n2 idx) n = alGet m n
          rw [alGet_alSet, if_neg he]

theorem lastIdxOf_sound : ∀ (d : List Record) (n : Value) (j : Nat),
    lastIdxOf d n = some j → j < d.length ∧ alGet (d.getD j []) "name" = some n := by
  intro d
  induction d with
  | nil => intro n j h; simp [lastIdxOf_nil] at h
  | cons r t ih =>
    intro n j h
    rw [lastIdxOf_cons] at h
    cases ht : lastIdxOf t n with
    | some j2 =>
      rw [ht] at h
      have hj : j = j2 + 1 := by
        have := h
        simp at this
        omega
      subst hj
      have h2 := ih n j2 ht
      refine ⟨by simpa using Nat.succ_lt_succ h2.1, ?_⟩
      rw [getD_cons_succ]
      exact h2.2
    | none =>
      rw [ht] at h
      by_cases hr : alGet r "name" = some n
      · rw [if_pos hr] at h
        have hj : j = 0 := by
          have := h
          simp at this
          omega
        subst hj
        exact ⟨by simp, by rw [getD_cons_zero]; exact hr⟩
      · rw [if_neg hr] at h
        exact absurd h (by simp)

theorem lastIdxOf_none_of_forall : ∀ (d : List Record) (n : Value),
    (∀ r ∈ d, ¬ alGet r "name" = some n) → lastIdxOf d n = none := by
  intro d
  induction d with
  | nil => intro n _; rfl
  | cons r t ih =>
    intro n h
    rw [lastIdxOf_cons, ih n (fun x hx => h x (List.mem_cons_of_mem r hx)),
      if_neg (h r (List.mem_cons_self r t))]

theorem lastIdxOf_of_last : ∀ (d : List Record) (n : Value) (i : Nat),
    i < d.length → alGet (d.getD i []) "name" = some n →
    (∀ l, i < l → l < d.length → ¬ alGet (d.getD l []) "name" = some n) →
    lastIdxOf d n = some i := by
  intro d
  induction d with
  | nil => intro n i hi _ _; simp at hi
  | cons r t ih
  =>
    intro n i hi hname hlast
    cases i with
    | zero =>
      have htn : lastIdxOf t n = none := by
        apply lastIdxOf_none_of_forall
        intro x hx
        obtain ⟨j, hj, hget⟩ := List.mem_iff_getElem.1 hx
        have hxg : t.getD j [] = x := by
          rw [List.getD_eq_getElem?_getD]
          rw [List.getElem?_eq_getElem hj]
          simpa using hget
        rw [← hxg]
        exact hlast (j + 1) (by omega) (by simpa using Nat.succ_lt_succ hj)
      rw [lastIdxOf_cons, htn, if_pos (by rw [← getD_cons_zero r t []]; exact hname)]
    | succ i2 =>
      have h2 : lastIdxOf t n = some i2 := by
        apply ih n i2 (by simpa using hi)
        · rw [← getD_cons_succ r t i2 []]; exact hname
        · intro l hl hll
          have := hlast (l + 1) (by omega) (by simpa using Nat.succ_lt_succ hll)
          rw [getD_cons_succ] at this
          exact this
      rw [lastIdxOf_cons, h2]

/-- The freshly built map is consistent: every stored index is in range and
its record carries the stored name. -/
theorem consOf_buildMapT (d : List Record) : consOf (buildMapT d 0 []) d := by
  intro n i h
  rw [alGet_buildMapT] at h
  cases ht : lastIdxOf d n with
  | some j =>
    rw [ht] at h
    have hj : i = j := by simp at h; omega
    subst hj
    exact lastIdxOf_sound d n i ht
  | none =>
    rw [ht] at h
    exact absurd h (by simp [alGet])

theorem buildMapAux_ok_names : ∀ (t : List Record) (idx : Nat) (m m2 : NameMap),
    buildMapAux t idx m = Except.ok m2 → ∀ r ∈ t, (alGet r "name").isSome = true := by
  intro t
  induction t with
  | nil => intro idx m m2 _ r hr; simp at hr
  | cons r2 t2 ih =>
    intro idx m m2 h r hr
    rw [show buildMapAux (r2 :: t2) idx m =
        (match alGet r2 "name" with
         | none => Except.error "KeyError: name"
         | some n => buildMapAux t2 (idx + 1) (alSet m n idx)) from rfl] at h
    cases hn : alGet r2 "name" with
    | none => rw [hn] at h; exact absurd h (by simp)
    | some n =>
      rw [hn] at h
      rcases List.mem_cons.1 hr with he | hm
      · subst he; rw [hn]; rfl
      · exact ih (idx + 1) (alSet m n idx) m2 h r hm

theorem buildMapAux_eq_T : ∀ (t : List Record) (idx : Nat) (m : NameMap),
    (∀ r ∈ t, (alGet r "name").isSome = true) →
    buildMapAux t idx m = Except.ok (buildMapT t idx m) := by
  intro t
  induction t with
  | nil => intro idx m _; rfl
  | cons r t2 ih =>
    intro idx m h
    have hr : (alGet r "name").isSome = true := h r (List.mem_cons_self r t2)
    cases hn : alGet r "name" with
    | none => rw [hn] at hr; simp at hr
    | some n =>
      rw [show buildMapAux (r :: t2) idx m =
          (match alGet r "name" with
           | none => Except.error "KeyError: name"
           | some n => buildMapAux t2 (idx + 1) (alSet m n idx)) from rfl, hn]
      rw [show buildMapT (r :: t2) idx m =
          (match alGet r "name" with
           | none => buildMapT t2 (idx + 1) m
           | some n => buildMapT t2 (idx + 1) (alSet m n idx)) from rfl, hn]
      exact ih (idx + 1) (alSet m n idx) (fun x hx => h x (List.mem_cons_of_mem r hx))

theorem buildMap_ok_names (d : List Record) (m : NameMap)
    (h : buildMap d = Except.ok m) : ∀ r ∈ d, (alGet r "name").isSome = true :=
  buildMapAux_ok_names d 0 [] m h

theorem buildMap_eq_ok (d : List Record)
    (h : ∀ r ∈ d, (alGet r "name").isSome = true) :
    buildMap d = Except.ok (buildMapT d 0 []) :=
  buildMapAux_eq_T d 0 [] h

theorem buildMap_ok_eq (d : List Record) (m : NameMap)
    (h : buildMap d = Except.ok m) : m = buildMapT d 0 [] := by
  have h2 := buildMap_eq_ok d (buildMap_ok_names d m h)
  rw [h] at h2
  exact Except.ok.inj h2

end GAIN

namespace GAIN

theorem buildMapT_names_congr : ∀ (d d2 : List Record) (i : Nat) (m : NameMap),
    d.length = d2.length →
    (∀ j, j < d.length → alGet (d.getD j []) "name" = alGet (d2.getD j []) "name") →
    buildMapT d i m = buildMapT d2 i m := by
  intro d
  induction d with
  | nil =>
    intro d2 i m hlen _
    cases d2 with
    | nil => rfl
    | cons r t => simp at hlen
  | cons r t ih =>
    intro d2 i m hlen hnames
    cases d2 with
    | nil => simp at hlen
    | cons r2 t2 =>
      have h0 : alGet r "name" = alGet r2 "name" := by
        have := hnames 0 (by simp)
        simpa [getD_cons_zero] using this
      have hrest : ∀ j, j < t.length → alGet (t.getD j []) "name" = alGet (t2.getD j []) "name" := by
        intro j hj
        have := hnames (j + 1) (by simpa using Nat.succ_lt_succ hj)
        simpa [getD_cons_succ] using this
      have hlent : t.length = t2.length := by simpa using hlen
      cases hr : alGet r "name" with
      | none =>
        rw [show buildMapT (r :: t) i m = buildMapT t (i + 1) m by simp [buildMapT, hr],
          show buildMapT (r2 :: t2) i m = buildMapT t2 (i + 1) m by
            simp [buildMapT, h0 ▸ hr]]
        exact ih t2 (i + 1) m hlent hrest
      | some n =>
        rw [show buildMapT (r :: t) i m = buildMapT t (i + 1) (alSet m n i) by
            simp [buildMapT, hr],
          show buildMapT (r2 :: t2) i m = buildMapT t2 (i + 1) (alSet m n i) by
            simp [buildMapT, h0 ▸ hr]]
        exact ih t2 (i + 1) (alSet m n i) hlent hrest

theorem buildMapT_append : ∀ (xs : List Record) (r : Record) (i : Nat) (m : NameMap),
    buildMapT (xs ++ [r]) i m =
      match alGet r "name" with
      | none => buildMapT xs i m
      | some n => alSet (buildMapT xs i m) n (i + xs.length) := by
  intro xs
  induction xs with
  | nil =>
    intro r i m
    cases hr : alGet r "name" with
    | none => simp [buildMapT, hr]
    | some n =>
      show buildMapT [r] i m = alSet (buildMapT [] i m) n (i + 0)
      simp [buildMapT, hr]
  | cons x t ih =>
    intro r i m
    cases hx : alGet x "name" with
    | none =>
      rw [show (x :: t) ++ [r] = x :: (t ++ [r]) from rfl,
        show buildMapT (x :: (t ++ [r])) i m = buildMapT (t ++ [r]) (i + 1) m by
          simp [buildMapT, hx],
        ih]
      cases hr : alGet r "name" with
      | none => rw [show buildMapT (x :: t) i m = buildMapT t (i + 1) m by simp [buildMapT, hx]]
      | some n =>
        rw [show buildMapT (x :: t) i m = buildMapT t (i + 1) m by simp [buildMapT, hx]]
        show alSet (buildMapT t (i + 1) m) n (i + 1 + t.length) =
          alSet (buildMapT t (i + 1) m) n (i + (x :: t).length)
        rw [show i + 1 + t.length = i + (x :: t).length by simp; omega]
    | some n2 =>
      rw [show (x :: t) ++ [r] = x :: (t ++ [r]) from rfl,
        show buildMapT (x :: (t ++ [r])) i m = buildMapT (t ++ [r]) (i + 1) (alSet m n2 i) by
          simp [buildMapT, hx],
        ih]
      cases hr : alGet r "name" with
      | none =>
        rw [show buildMapT (x :: t) i m = buildMapT t (i + 1) (alSet m n2 i) by
          simp [buildMapT, hx]]
      | some n =>
        rw [show buildMapT (x :: t) i m = buildMapT t (i + 1) (alSet m n2 i) by
          simp [buildMapT, hx]]
        show alSet (buildMapT t (i + 1) (alSet m n2 i)) n (i + 1 + t.length) =
          alSet (buildMapT t (i + 1) (alSet m n2 i)) n (i + (x :: t).length)
        rw [show i + 1 + t.length = i + (x :: t).length by simp; omega]

theorem step_nameless (s : MState) (rec : Record) (hn : alGet rec "name" = none) :
    step s rec = Except.error "KeyError: name" := by
  simp [step, hn]

theorem step_update (s : MState) (rec : Record) (n : Value) (i : Nat)
    (hn : alGet rec "name" = some n) (hi : alGet s.map n = some i) :
    step s rec = Except.ok { s with
      data := s.data.set i (dictUpdate (s.data.getD i []) rec),
      updated := s.updated + 1 } := by
  simp [step, hn, hi]

theorem step_add (s : MState) (rec : Record) (n : Value)
    (hn : alGet rec "name" = some n) (hi : alGet s.map n = none) :
    step s rec = Except.ok { s with
      data := s.data ++ [rec],
      map := alSet s.map n s.data.length,
      added := s.added + 1 } := by
  simp [step, hn, hi]

theorem reconcile_nil (s : MState) : reconcile s [] = Except.ok s := rfl

theorem reconcile_cons (s : MState) (r : Record) (t : List Record) :
    reconcile s (r :: t) =
      match step s r with
      | Except.error e => Except.error e
      | Except.ok s1 => reconcile s1 t := rfl

/-- `inv` is preserved when an incoming record updates a mapped entry. -/
theorem inv_update (m : NameMap) (data : List Record) (rec : Record) (n : Value) (i : Nat)
    (hinv : inv m data) (hn : alGet rec "name" = some n)
    (hrec : (keysOf rec).Nodup) (hi : alGet m n = some i) :
    inv m (data.set i (dictUpdate (data.getD i []) rec)) := by
  obtain ⟨hcons, hsync, hwf⟩ := hinv
  have hilen : i < data.length := (hcons n i hi).1
  have hx : alGet (dictUpdate (data.getD i []) rec) "name" = some n := by
    rw [alGet_dictUpdate rec hrec, hn]
  have hnames : ∀ j, j < data.length →
      alGet ((data.set i (dictUpdate (data.getD i []) rec)).getD j []) "name" =
      alGet (data.getD j []) "name" := by
    intro j hj
    by_cases hji : j = i
    · subst hji
      rw [getD_set_self data j _ [] hj, hx]
      exact (hcons n j hi).2.symm
    · rw [getD_set_ne data i j _ [] hji]
  refine ⟨?_, ?_, ?_⟩
  · intro n2 i2 h2
    have hold := hcons n2 i2 h2
    refine ⟨by rw [List.length_set]; exact hold.1, ?_⟩
    rw [hnames i2 hold.1]
    exact hold.2
  · intro n2
    rw [hsync n2]
    rw [buildMapT_names_congr data (data.set i (dictUpdate (data.getD i []) rec)) 0 []
      (by rw [List.length_set]) (fun j hj => (hnames j hj).symm)]
  · intro r hr
    rcases List.mem_or_eq_of_mem_set hr with hm | he
    · exact hwf r hm
    · subst he
      refine ⟨?_, ?_⟩
      · apply nodup_keysOf_dictUpdate
        exact (hwf (data.getD i []) (getD_mem data i [] hilen)).1
      · rw [hx]; rfl

/-- `inv` is preserved when an incoming record with a fresh name is appended
and registered in the map. -/
theorem inv_append (m : NameMap) (data : List Record) (rec : Record) (n : Value)
    (hinv : inv m data) (hn : alGet rec "name" = some n)
    (hrec : (keysOf rec).Nodup) (hmiss : alGet m n = none) :
    inv (alSet m n data.length) (data ++ [rec]) := by
  obtain ⟨hcons, hsync, hwf⟩ := hinv
  refine ⟨?_, ?_, ?_⟩
  · intro n2 i2 h2
    rw [alGet_alSet] at h2
    by_cases he : n = n2
    · rw [if_pos he] at h2
      have hi2 : i2 = data.length := (Option.some.inj h2).symm
      subst hi2
      refine ⟨by simp, ?_⟩
      rw [getD_append_len, hn, he]
    · rw [if_neg he] at h2
      have hold := hcons n2 i2 h2
      refine ⟨by simp; omega, ?_⟩
      rw [getD_append_lt data [rec] i2 [] hold.1]
      exact hold.2
  · intro n2
    rw [buildMapT_append data rec 0 [], hn]
    show alGet (alSet m n data.length) n2 =
      alGet (alSet (buildMapT data 0 []) n (0 + data.length)) n2
    rw [alGet_alSet, alGet_alSet, Nat.zero_add]
    by_cases he : n = n2
    · rw [if_pos he, if_pos he]
    · rw [if_neg he, if_neg he, hsync n2]
  · intro r hr
    rcases List.mem_append.1 hr with hm | hm
    · exact hwf r hm
    · have he : r = rec := by simpa using hm
      subst he
      exact ⟨hrec, by rw [hn]; rfl⟩

theorem reconcile_map_stable : ∀ (rs : List Record) (s s2 : MState),
    reconcile s rs = Except.ok s2 →
    ∀ n i, alGet s.map n = some i → alGet s2.map n = some i := by
  intro rs
  induction rs with
  | nil =>
    intro s s2 h n i hi
    rw [reconcile_nil] at h
    rw [← Except.ok.inj h]
    exact hi
  | cons r t ih =>
    intro s s2 h n i hi
    rw [reconcile_cons] at h
    cases hn : alGet r "name" with
    | none => rw [step_nameless s r hn] at h; exact absurd h (by simp)
    | some n2 =>
      cases hm : alGet s.map n2 with
      | some j =>
        rw [step_update s r n2 j hn hm] at h
        exact ih _ s2 h n i hi
      | none =>
        rw [step_add s r n2 hn hm] at h
        apply ih _ s2 h n i
        show alGet (alSet s.map n2 s.data.length) n = some i
        rw [alGet_alSet, if_neg (fun he => by rw [he, hi] at hm; exact absurd hm (by simp))]
        exact hi

theorem reconcile_ok_names : ∀ (rs : List Record) (s s2 : MState),
    reconcile s rs = Except.ok s2 → ∀ r ∈ rs, (alGet r "name").isSome = true := by
  intro rs
  induction rs with
  | nil => intro s s2 _ r hr; simp at hr
  | cons r2 t ih =>
    intro s s2 h r hr
    rw [reconcile_cons] at h
    cases hn : alGet r2 "name" with
    | none => rw [step_nameless s r2 hn] at h; exact absurd h (by simp)
    | some n =>
      rcases List.mem_cons.1 hr with he | hm
      · subst he; rw [hn]; rfl
      · cases hm2 : alGet s.map n with
        | some j =>
          rw [step_update s r2 n j hn hm2] at h
          exact ih _ s2 h r hm
        | none =>
          rw [step_add s r2 n hn hm2] at h
          exact ih _ s2 h r hm

theorem reconcile_error_of_nameless : ∀ (rs : List Record) (s : MState),
    (∃ r ∈ rs, alGet r "name" = none) → ∃ e, reconcile s rs = Except.error e := by
  intro rs
  induction rs with
  | nil => intro s h; obtain ⟨r, hr, _⟩ := h; simp at hr
  | cons r2 t ih =>
    intro s h
    rw [reconcile_cons]
    cases hn : alGet r2 "name" with
    | none =>
      rw [step_nameless s r2 hn]
      exact ⟨"KeyError: name", rfl⟩
    | some n =>
      obtain ⟨r, hr, hrn⟩ := h
      have hm : r ∈ t := by
        rcases List.mem_cons.1 hr with he | hm2
        · subst he; rw [hn] at hrn; exact absurd hrn (by simp)
        · exact hm2
      cases hm2 : alGet s.map n with
      | some j =>
        rw [step_update s r2 n j hn hm2]
        exact ih _ ⟨r, hm, hrn⟩
      | none =>
        rw [step_add s r2 n hn hm2]
        exact ih _ ⟨r, hm, hrn⟩

theorem buildMapAux_error_of_nameless : ∀ (t : List Record) (idx : Nat) (m : NameMap),
    (∃ r ∈ t, alGet r "name" = none) → ∃ e, buildMapAux t idx m = Except.error e := by
  intro t
  induction t with
  | nil => intro idx m h; obtain ⟨r, hr, _⟩ := h; simp at hr
  | cons r2 t2 ih =>
    intro idx m h
    cases hn : alGet r2 "name" with
    | none => exact ⟨"KeyError: name", by simp [buildMapAux, hn]⟩
    | some n =>
      obtain ⟨r, hr, hrn⟩ := h
      have hm : r ∈ t2 := by
        rcases List.mem_cons.1 hr with he | hm2
        · subst he; rw [hn] at hrn; exact absurd hrn (by simp)
        · exact hm2
      obtain ⟨e, he⟩ := ih (idx + 1) (alSet m n idx) ⟨r, hm, hrn⟩
      exact ⟨e, by simp [buildMapAux, hn]; exact he⟩

theorem buildMap_error_of_nameless (d : List Record)
    (h : ∃ r ∈ d, alGet r "name" = none) : ∃ e, buildMap d = Except.error e :=
  buildMapAux_error_of_nameless d 0 [] h

end GAIN

namespace GAIN

theorem updFold_nil (m : NameMap) (data : List Record) : updFold m data [] = data := rfl

theorem updFold_cons (m : NameMap) (data : List Record) (r : Record) (t : List Record) :
    updFold m data (r :: t) =
      match routeVia m r with
      | some i => updFold m (data.set i (dictUpdate (data.getD i []) r)) t
      | none => updFold m data t := by
  cases h : routeVia m r <;> simp [updFold, h]

theorem length_updFold (m : NameMap) : ∀ (rs : List Record) (data : List Record),
    (updFold m data rs).length = data.length := by
  intro rs
  induction rs with
  | nil => intro data; rfl
  | cons r t ih =>
    intro data
    rw [updFold_cons]
    cases h : routeVia m r with
    | some i => rw [ih]; exact List.length_set data i _
    | none => exact ih data

/-- With a fixed map, the final value of the entry at index `i` is the initial
value overlaid with exactly the incoming records routed to `i`, in order. -/
theorem getD_updFold (m : NameMap) : ∀ (rs : List Record) (data : List Record) (i : Nat),
    (∀ r ∈ rs, ∀ j, routeVia m r = some j → j < data.length) →
    i < data.length →
    (updFold m data rs).getD i [] =
      foldUpd (data.getD i []) (rs.filter (fun r => routeVia m r == some i)) := by
  intro rs
  induction rs with
  | nil => intro data i _ _; rfl
  | cons r t ih =>
    intro data i hv hi
    rw [updFold_cons]
    cases hr : routeVia m r with
    | none =>
      have hp : (routeVia m r == some i) = false := by rw [hr]; rfl
      rw [List.filter_cons_of_neg (by simp [hp])]
      exact ih data i (fun x hx => hv x (List.mem_cons_of_mem r hx)) hi
    | some j =>
      have hjlen : j < data.length := hv r (List.mem_cons_self r t) j hr
      by_cases hji : j = i
      · subst hji
        have hp : (routeVia m r == some j) = true := by rw [hr]; exact beq_iff_eq.2 rfl
        rw [List.filter_cons_of_pos (by rw [hp])]
        rw [foldUpd_cons]
        have hlen2 : (data.set j (dictUpdate (data.getD j []) r)).length = data.length :=
          List.length_set data j _
        rw [ih (data.set j (dictUpdate (data.getD j []) r)) j
          (fun x hx j2 hj2 => by rw [hlen2]; exact hv x (List.mem_cons_of_mem r hx) j2 hj2)
          (by rw [hlen2]; exact hjlen)]
        rw [getD_set_self data j _ [] hjlen]
      · have hp : (routeVia m r == some i) = false := by
          rw [hr]
          exact beq_eq_false_iff_ne.2 (fun h2 => hji (Option.some.inj h2))
        rw [List.filter_cons_of_neg (by simp [hp])]
        have hlen2 : (data.set j (dictUpdate (data.getD j []) r)).length = data.length :=
          List.length_set data j _
        rw [ih (data.set j (dictUpdate (data.getD j []) r)) i
          (fun x hx j2 hj2 => by rw [hlen2]; exact hv x (List.mem_cons_of_mem r hx) j2 hj2)
          (by rw [hlen2]; exact hi)]
        rw [getD_set_ne data j i _ [] (fun he => hji he.symm)]

/-- When every incoming record hits the map, the loop performs only updates:
the map and addition count are unchanged, the update count grows by the
number of records, and the data is the corresponding `updFold`. -/
theorem reconcile_allhit : ∀ (rs : List Record) (data : List Record) (m : NameMap) (a u : Nat),
    (∀ r ∈ rs, ∃ i, routeVia m r = some i) →
    reconcile ⟨data, m, a, u⟩ rs =
      Except.ok ⟨updFold m data rs, m, a, u + rs.length⟩ := by
  intro rs
  induction rs with
  | nil => intro data m a u _; rw [reconcile_nil, updFold_nil]; rfl
  | cons r t ih =>
    intro data m a u hhit
    obtain ⟨i, hi⟩ := hhit r (List.mem_cons_self r t)
    cases hn : alGet r "name" with
    | none => rw [routeVia, hn] at hi; exact absurd hi (by simp)
    | some n =>
      have hm : alGet m n = some i := by rw [routeVia, hn] at hi; exact hi
      rw [reconcile_cons, step_update ⟨data, m, a, u⟩ r n i hn hm]
      show reconcile ⟨data.set i (dictUpdate (data.getD i []) r), m, a, u + 1⟩ t =
        Except.ok ⟨updFold m data (r :: t), m, a, u + (r :: t).length⟩
      rw [ih _ m a (u + 1) (fun x hx => hhit x (List.mem_cons_of_mem r hx)),
        updFold_cons, hi]
      have harith : u + 1 + t.length = u + (r :: t).length := by simp; omega
      rw [harith]

theorem mergeInner_ok_inv (fs fs2 : FS) (a u : Nat)
    (h : mergeInner fs = Except.ok (fs2, a, u)) :
    ∃ m idata s c, buildMap (parseOr fs.primary) = Except.ok m ∧
      fs.incoming = some (Content.good idata) ∧
      reconcile ⟨parseOr fs.primary, m, 0, 0⟩ idata = Except.ok s ∧
      fs.primary = some c ∧
      fs2 = ⟨some (Content.good s.data), some c, fs.incoming⟩ ∧
      a = s.added ∧ u = s.updated := by
  rw [mergeInner] at h
  split at h
  next e heq => exact absurd h (by simp)
  next m heq =>
    split at h
    next heq2 => exact absurd h (by simp)
    next b heq2 => exact absurd h (by simp)
    next idata heq2 =>
      split at h
      next e heq3 => exact absurd h (by simp)
      next s heq3 =>
        split at h
        next heq4 => exact absurd h (by simp)
        next c heq4 =>
          have h2 := Except.ok.inj h
          refine ⟨m, idata, s, c, heq, heq2, heq3, heq4, ?_, ?_, ?_⟩
          · exact (congrArg Prod.fst h2).symm
          · exact (congrArg Prod.fst (congrArg Prod.snd h2)).symm
          · exact (congrArg Prod.snd (congrArg Prod.snd h2)).symm

theorem merge_eq_of_ok (fs fs2 : FS) (a u : Nat)
    (h : mergeInner fs = Except.ok (fs2, a, u)) :
    merge_exercises fs = (fs2, Report.ok a u) := by
  rw [merge_exercises, h]

theorem merge_eq_of_error (fs : FS) (e : String)
    (h : mergeInner fs = Except.error e) :
    merge_exercises fs = (fs, Report.err ("Error merging exercises: " ++ e)) := by
  rw [merge_exercises, h]

end GAIN

namespace GAIN

theorem step_update4 (data : List Record) (m : NameMap) (a u : Nat)
    (rec : Record) (n : Value) (i : Nat)
    (hn : alGet rec "name" = some n) (hi : alGet m n = some i) :
    step ⟨data, m, a, u⟩ rec =
      Except.ok ⟨data.set i (dictUpdate (data.getD i []) rec), m, a, u + 1⟩ := by
  simp [step, hn, hi]

theorem step_add4 (data : List Record) (m : NameMap) (a u : Nat)
    (rec : Record) (n : Value)
    (hn : alGet rec "name" = some n) (hi : alGet m n = none) :
    step ⟨data, m, a, u⟩ rec =
      Except.ok ⟨data ++ [rec], alSet m n data.length, a + 1, u⟩ := by
  simp [step, hn, hi]

/-- Full characterization of a successful merge loop run, phrased against the
*final* state: the invariant is preserved, every processed record's name is
registered at the end, and the final record at each index is the starting
record (or, for appended indices, the first record routed there) overlaid
with exactly the incoming records the final map routes to that index. -/
theorem reconcile_char : ∀ (rs : List Record) (data : List Record) (m : NameMap)
    (a u : Nat) (s2 : MState),
    reconcile ⟨data, m, a, u⟩ rs = Except.ok s2 →
    inv m data →
    (∀ r ∈ rs, (keysOf r).Nodup ∧ (alGet r "name").isSome = true) →
    inv s2.map s2.data ∧
    data.length ≤ s2.data.length ∧
    (∀ r ∈ rs, ∃ n i, alGet r "name" = some n ∧ alGet s2.map n = some i) ∧
    (∀ i, i < data.length →
      s2.data.getD i [] =
        foldUpd (data.getD i [])
          (rs.filter (fun r => routeVia s2.map r == some i))) ∧
    (∀ i, data.length ≤ i → i < s2.data.length →
      ∃ g gs, rs.filter (fun r => routeVia s2.map r == some i) = g :: gs ∧
        (keysOf g).Nodup ∧ s2.data.getD i [] = foldUpd g gs) := by
  intro rs
  induction rs with
  | nil =>
    intro data m a u s2 h hinv hwf
    rw [reconcile_nil] at h
    obtain rfl := Except.ok.inj h
    refine ⟨hinv, Nat.le_refl _, fun r hr => absurd hr (by simp), ?_, ?_⟩
    · intro i hi; rfl
    · intro i h1 h2
      exact absurd h2 (by simp; omega)
  | cons r t ih =>
    intro data m a u s2 h hinv hwf
    rw [reconcile_cons] at h
    have hr := hwf r (List.mem_cons_self r t)
    have hwft : ∀ x ∈ t, (keysOf x).Nodup ∧ (alGet x "name").isSome = true :=
      fun x hx => hwf x (List.mem_cons_of_mem r hx)
    cases hn : alGet r "name" with
    | none => rw [hn] at hr; simp at hr
    | some n =>
      cases hm : alGet m n with
      | some i0 =>
        rw [step_update4 data m a u r n i0 hn hm] at h
        have hi0len : i0 < data.length := (hinv.1 n i0 hm).1
        have hinv1 : inv m (data.set i0 (dictUpdate (data.getD i0 []) r)) :=
          inv_update m data r n i0 hinv hn hr.1 hm
        obtain ⟨hinv2, hlen2, hhit2, hchar1, hchar2⟩ :=
          ih (data.set i0 (dictUpdate (data.getD i0 []) r)) m a (u + 1) s2 h hinv1 hwft
        have hlenD1 : (data.set i0 (dictUpdate (data.getD i0 []) r)).length = data.length :=
          List.length_set data i0 _
        have hstab : alGet s2.map n = some i0 :=
          reconcile_map_stable t ⟨data.set i0 (dictUpdate (data.getD i0 []) r), m, a, u + 1⟩
            s2 h n i0 hm
        have hroute : routeVia s2.map r = some i0 := by
          rw [routeVia, hn]; exact hstab
        refine ⟨hinv2, ?_, ?_, ?_, ?_⟩
        · rw [← hlenD1]; exact hlen2
        · intro x hx
          rcases List.mem_cons.1 hx with he | hmem
          · subst he; exact ⟨n, i0, hn, hstab⟩
          · exact hhit2 x hmem
        · intro i hi
          by_cases hii : i0 = i
          · subst hii
            rw [List.filter_cons_of_pos (by rw [hroute]; exact beq_self_eq_true _)]
            rw [foldUpd_cons]
            rw [hchar1 i0 (by rw [hlenD1]; exact hi0len)]
            rw [getD_set_self data i0 _ [] hi0len]
          · rw [List.filter_cons_of_neg (by rw [hroute]; simp; omega)]
            rw [hchar1 i (by rw [hlenD1]; exact hi)]
            rw [getD_set_ne data i0 i _ [] (fun he => hii he.symm)]
        · intro i hge hlt
          have hge1 : (data.set i0 (dictUpdate (data.getD i0 []) r)).length ≤ i := by
            rw [hlenD1]; exact hge
          obtain ⟨g, gs, hf, hgnd, hfold⟩ := hchar2 i hge1 hlt
          refine ⟨g, gs, ?_, hgnd, hfold⟩
          rw [List.filter_cons_of_neg (by rw [hroute]; simp; omega)]
          exact hf
      | none =>
        rw [step_add4 data m a u r n hn hm] at h
        have hinv1 : inv (alSet m n data.length) (data ++ [r]) :=
          inv_append m data r n hinv hn hr.1 hm
        obtain ⟨hinv2, hlen2, hhit2, hchar1, hchar2⟩ :=
          ih (data ++ [r]) (alSet m n data.length) (a + 1) u s2 h hinv1 hwft
        have hlenD1 : (data ++ [r]).length = data.length + 1 := by simp
        have hM1 : alGet (alSet m n data.length) n = some data.length := by
          rw [alGet_alSet, if_pos rfl]
        have hstab : alGet s2.map n = some data.length :=
          reconcile_map_stable t ⟨data ++ [r], alSet m n data.length, a + 1, u⟩
            s2 h n data.length hM1
        have hroute : routeVia s2.map r = some data.length := by
          rw [routeVia, hn]; exact hstab
        refine ⟨hinv2, ?_, ?_, ?_, ?_⟩
        · rw [hlenD1] at hlen2; omega
        · intro x hx
          rcases List.mem_cons.1 hx with he | hmem
          · subst he; exact ⟨n, data.length, hn, hstab⟩
          · exact hhit2 x hmem
        · intro i hi
          rw [List.filter_cons_of_neg (by rw [hroute]; simp; omega)]
          rw [hchar1 i (by rw [hlenD1]; omega)]
          rw [getD_append_lt data [r] i [] hi]
        · intro i hge hlt
          by_cases hie : i = data.length
          · subst hie
            refine ⟨r, t.filter (fun x => routeVia s2.map x == some data.length), ?_, hr.1, ?_⟩
            · rw [List.filter_cons_of_pos (by rw [hroute]; exact beq_self_eq_true _)]
            · have h2 := hchar1 data.length (by rw [hlenD1]; omega)
              rw [getD_append_len data r []] at h2
              exact h2
          · have hge1 : (data ++ [r]).length ≤ i := by rw [hlenD1]; omega
            obtain ⟨g, gs, hf, hgnd, hfold⟩ := hchar2 i hge1 hlt
            refine ⟨g, gs, ?_, hgnd, hfold⟩
            rw [List.filter_cons_of_neg (by rw [hroute]; simp; omega)]
            exact hf

end GAIN

namespace GAIN

theorem merge_ok_inv (fs fs1 : FS) (a u : Nat)
    (h : merge_exercises fs = (fs1, Report.ok a u)) :
    mergeInner fs = Except.ok (fs1, a, u) := by
  rw [merge_exercises] at h
  cases hmi : mergeInner fs with
  | ok x =>
    rw [hmi] at h
    obtain ⟨x1, x2, x3⟩ := x
    have h1 : x1 = fs1 := congrArg Prod.fst h
    have h2 : Report.ok x2 x3 = Report.ok a u := congrArg Prod.snd h
    have h3 : x2 = a := by cases h2; rfl
    have h4 : x3 = u := by cases h2; rfl
    rw [h1, h3, h4]
  | error e =>
    rw [hmi] at h
    have h2 : Report.err ("Error merging exercises: " ++ e) = Report.ok a u :=
      congrArg Prod.snd h
    exact absurd h2 (by simp)

theorem mergeInner_ok_of (fs : FS) (d idata d2 : List Record) (m m2 : NameMap)
    (a2 u2 : Nat)
    (hp : fs.primary = some (Content.good d))
    (hb : buildMap d = Except.ok m)
    (hin : fs.incoming = some (Content.good idata))
    (hrec : reconcile ⟨d, m, 0, 0⟩ idata = Except.ok ⟨d2, m2, a2, u2⟩) :
    mergeInner fs =
      Except.ok (⟨some (Content.good d2), some (Content.good d), fs.incoming⟩, a2, u2) := by
  have hpars : parseOr fs.primary = d := by rw [hp]; rfl
  rw [mergeInner, hpars, hb]
  show (match fs.incoming with
    | none => Except.error "FileNotFoundError: new_exercises.json"
    | some (Content.bad _) => Except.error "JSONDecodeError: new_exercises.json"
    | some (Content.good idata) =>
      match reconcile ({ data := d, map := m, added := 0, updated := 0 } : MState) idata with
      | Except.error e => Except.error e
      | Except.ok s =>
        match fs.primary with
        | none => Except.error "FileNotFoundError: exercises.json"
        | some c =>
          Except.ok (({ primary := some (Content.good s.data),
                        backup := some c,
                        incoming := fs.incoming } : FS), s.added, s.updated) :
      Except String (FS × Nat × Nat)) =
    Except.ok (({ primary := some (Content.good d2),
                  backup := some (Content.good d),
                  incoming := fs.incoming } : FS), a2, u2)
  rw [hin]
  show (match reconcile ({ data := d, map := m, added := 0, updated := 0 } : MState) idata with
      | Except.error e => Except.error e
      | Except.ok s =>
        match fs.primary with
        | none => Except.error "FileNotFoundError: exercises.json"
        | some c =>
          Except.ok (({ primary := some (Content.good s.data),
                        backup := some c,
                        incoming := some (Content.good idata) } : FS), s.added, s.updated) :
      Except String (FS × Nat × Nat)) =
    Except.ok (({ primary := some (Content.good d2),
                  backup := some (Content.good d),
                  incoming := some (Content.good idata) } : FS), a2, u2)
  rw [hrec, hp]

end GAIN

namespace GAIN

/-- C6: Idempotence of re-merge.  If a run of `merge_exercises` succeeds
(reporting counts `a`/`u`), then running it again on the resulting filesystem
with the same incoming store succeeds with update count equal to the number of
incoming records and addition count 0, and leaves the primary store exactly as
the first run left it (the backup becomes a copy of that unchanged primary).
The two well-formedness hypotheses say the stores' records are genuine JSON
objects: no duplicate field names inside a record. -/
theorem C6_remerge_idempotence (fs0 fs1 : FS) (a u : Nat) (idata : List Record)
    (h1 : merge_exercises fs0 = (fs1, Report.ok a u))
    (hin : fs0.incoming = some (Content.good idata))
    (hwp : ∀ d, fs0.primary = some (Content.good d) → ∀ r ∈ d, (keysOf r).Nodup)
    (hwi : ∀ r ∈ idata, (keysOf r).Nodup) :
    merge_exercises fs1 =
      (⟨fs1.primary, fs1.primary, fs1.incoming⟩, Report.ok 0 idata.length) := by
  have hMI := merge_ok_inv fs0 fs1 a u h1
  obtain ⟨m0, idata0, s, c, hb, hin0, hrec, hp, hfs1, ha, hu⟩ :=
    mergeInner_ok_inv fs0 fs1 a u hMI
  have hid : idata0 = idata := by
    rw [hin] at hin0
    exact (Content.good.inj (Option.some.inj hin0)).symm
  rw [hid] at hrec
  have hnd : ∀ r ∈ parseOr fs0.primary, (keysOf r).Nodup := by
    cases hp2 : fs0.primary with
    | none => intro r hr; simp [parseOr] at hr
    | some c2 =>
      cases c2 with
      | good d => intro r hr; exact hwp d hp2 r hr
      | bad b => intro r hr; simp [parseOr] at hr
  have hm0 : m0 = buildMapT (parseOr fs0.primary) 0 [] :=
    buildMap_ok_eq (parseOr fs0.primary) m0 hb
  have hinv0 : inv m0 (parseOr fs0.primary) := by
    refine ⟨?_, ?_, ?_⟩
    · rw [hm0]; exact consOf_buildMapT (parseOr fs0.primary)
    · intro n; rw [hm0]
    · intro r hr
      exact ⟨hnd r hr, buildMap_ok_names (parseOr fs0.primary) m0 hb r hr⟩
  have hwfi : ∀ r ∈ idata, (keysOf r).Nodup ∧ (alGet r "name").isSome = true :=
    fun r hr => ⟨hwi r hr, reconcile_ok_names idata ⟨parseOr fs0.primary, m0, 0, 0⟩ s hrec r hr⟩
  obtain ⟨hinv2, hlen2, hhit2, hchar1, hchar2⟩ :=
    reconcile_char idata (parseOr fs0.primary) m0 0 0 s hrec hinv0 hwfi
  have hcons2 : consOf s.map s.data := hinv2.1
  have hsync2 : mapSyncs s.map s.data := hinv2.2.1
  have hnamed1 : ∀ r ∈ s.data, (alGet r "name").isSome = true :=
    fun r hr => (hinv2.2.2 r hr).2
  have hbm2 : buildMap s.data = Except.ok (buildMapT s.data 0 []) :=
    buildMap_eq_ok s.data hnamed1
  have hroute_eq : ∀ r : Record, routeVia (buildMapT s.data 0 []) r = routeVia s.map r := by
    intro r
    rw [routeVia, routeVia]
    cases hn2 : alGet r "name" with
    | none => rfl
    | some n2 => exact (hsync2 n2).symm
  have hallhit : ∀ r ∈ idata, ∃ i, routeVia (buildMapT s.data 0 []) r = some i := by
    intro r hrm
    obtain ⟨n2, i2, hn2, hs⟩ := hhit2 r hrm
    refine ⟨i2, ?_⟩
    rw [routeVia, hn2]
    show alGet (buildMapT s.data 0 []) n2 = some i2
    rw [← hsync2 n2]
    exact hs
  have hrec2 : reconcile ⟨s.data, buildMapT s.data 0 [], 0, 0⟩ idata =
      Except.ok ⟨updFold (buildMapT s.data 0 []) s.data idata,
        buildMapT s.data 0 [], 0, 0 + idata.length⟩ :=
    reconcile_allhit idata s.data (buildMapT s.data 0 []) 0 0 hallhit
  have hv : ∀ r ∈ idata, ∀ j, routeVia (buildMapT s.data 0 []) r = some j →
      j < s.data.length := by
    intro r hrm j hj
    rw [routeVia] at hj
    cases hn2 : alGet r "name" with
    | none => rw [hn2] at hj; exact absurd hj (by simp)
    | some n2 =>
      rw [hn2] at hj
      exact (consOf_buildMapT s.data n2 j hj).1
  have hupd : updFold (buildMapT s.data 0 []) s.data idata = s.data := by
    apply list_ext_getD ([] : Record)
    · exact length_updFold (buildMapT s.data 0 []) idata s.data
    · intro i hi
      rw [length_updFold (buildMapT s.data 0 []) idata s.data] at hi
      rw [getD_updFold (buildMapT s.data 0 []) idata s.data i hv hi]
      rw [List.filter_congr (fun r hrm => by rw [hroute_eq r])]
      by_cases hi0 : i < (parseOr fs0.primary).length
      · rw [hchar1 i hi0]
        apply foldUpd_absorb
        · exact hnd ((parseOr fs0.primary).getD i [])
            (getD_mem (parseOr fs0.primary) i [] hi0)
        · intro b hbm
          exact hwi b (List.mem_filter.1 hbm).1
      · obtain ⟨g, gs, hf, hgnd, hfold⟩ := hchar2 i (by omega) hi
        rw [hf, hfold]
        have hmem2 : ∀ b ∈ g :: gs, (keysOf b).Nodup := by
          intro b hbm
          rw [← hf] at hbm
          exact hwi b (List.mem_filter.1 hbm).1
        have he1 : foldUpd g (g :: gs) = foldUpd g gs := by
          rw [foldUpd_cons, dictUpdate_self g hgnd]
        calc foldUpd (foldUpd g gs) (g :: gs)
            = foldUpd (foldUpd g (g :: gs)) (g :: gs) := by rw [he1]
          _ = foldUpd g (g :: gs) := foldUpd_absorb (g :: gs) g hgnd hmem2
          _ = foldUpd g gs := he1
  have hfsp : fs1.primary = some (Content.good s.data) := by rw [hfs1]
  have hfsin : fs1.incoming = some (Content.good idata) := by
    rw [hfs1]
    show fs0.incoming = some (Content.good idata)
    exact hin
  have hM := mergeInner_ok_of fs1 s.data idata
    (updFold (buildMapT s.data 0 []) s.data idata)
    (buildMapT s.data 0 []) (buildMapT s.data 0 []) 0 (0 + idata.length)
    hfsp hbm2 hfsin hrec2
  rw [hupd, Nat.zero_add] at hM
  have hfin := merge_eq_of_ok fs1 _ 0 idata.length hM
  rw [hfin, hfsp, hfsin]

end GAIN

namespace GAIN

/-- C1: Fresh start.  The claim says that with the primary store absent and an
incoming store of distinct-named records, the merge succeeds, persists exactly
those records, and reports addition count N and update count 0.  The code
violates this for an absent primary store: the unconditional
`shutil.copy2(EXERCISES_FILE, ...)` raises `FileNotFoundError`, the top-level
handler reports it, and nothing is written — even though the load step
deliberately tolerates the missing file.  This theorem evaluates the model at
the failing input (no primary store, one incoming record named "squat"):
the run reports an error and the primary store stays absent. -/
theorem C1_fresh_start_fails :
    merge_exercises ⟨none, none,
        some (Content.good [[("name", Value.str "squat"), ("reps", Value.int 5)]])⟩ =
      (⟨none, none,
        some (Content.good [[("name", Value.str "squat"), ("reps", Value.int 5)]])⟩,
       Report.err "Error merging exercises: FileNotFoundError: exercises.json") := by
  rfl

/-- C2: Backup skip on fresh start.  The claim says the backup step is skipped
without error when no primary store exists, and the merge proceeds to persist.
The code contradicts this (and its own fresh-start fallback at load time):
`shutil.copy2` is called unconditionally, raises `FileNotFoundError` when the
primary file is absent, and the run aborts before the write.  Evaluated at a
fresh-start input: the report is the copy error and nothing is persisted. -/
theorem C2_backup_not_skipped :
    merge_exercises ⟨none, none, some (Content.good [[("name", Value.str "pushup")]])⟩ =
      (⟨none, none, some (Content.good [[("name", Value.str "pushup")]])⟩,
       Report.err "Error merging exercises: FileNotFoundError: exercises.json") := by
  rfl

/-- C3: Incoming-store failure is non-destructive.  If the incoming store is
missing or its contents fail to parse, the run reports an error and the whole
filesystem — primary store and backup path included — is exactly as before. -/
theorem C3_incoming_failure_nondestructive (fs : FS)
    (h : fs.incoming = none ∨ ∃ b, fs.incoming = some (Content.bad b)) :
    (merge_exercises fs).1 = fs ∧
    ∃ msg, (merge_exercises fs).2 = Report.err msg := by
  cases hmi : mergeInner fs with
  | error e =>
    rw [merge_eq_of_error fs e hmi]
    exact ⟨rfl, _, rfl⟩
  | ok x =>
    exfalso
    obtain ⟨fsx, ax, ux⟩ := x
    obtain ⟨m, idata, s, c, _, hin2, _, _, _, _, _⟩ := mergeInner_ok_inv fs fsx ax ux hmi
    rcases h with h2 | ⟨b, h2⟩ <;> rw [h2] at hin2 <;> exact absurd hin2 (by simp)

theorem C3_witness :
    (merge_exercises ⟨some (Content.good [[("name", Value.str "a")]]), none, none⟩).1 =
      ⟨some (Content.good [[("name", Value.str "a")]]), none, none⟩ ∧
    ∃ msg, (merge_exercises
      ⟨some (Content.good [[("name", Value.str "a")]]), none, none⟩).2 = Report.err msg :=
  C3_incoming_failure_nondestructive
    ⟨some (Content.good [[("name", Value.str "a")]]), none, none⟩ (Or.inl rfl)

/-- C4: Update semantics.  When an incoming record's name hits the map, the
loop step succeeds; the matched entry is overwritten in place (every incoming
field wins, fields only on the existing record survive, every other position
is untouched, the length is unchanged), the map and addition count are
unchanged, and the update count grows by one. -/
theorem C4_update_semantics (s : MState) (rec : Record) (n : Value) (i : Nat)
    (hn : alGet rec "name" = some n) (hrec : (keysOf rec).Nodup)
    (hi : alGet s.map n = some i) (hlen : i < s.data.length) :
    ∃ s2, step s rec = Except.ok s2 ∧
      s2.data = s.data.set i (dictUpdate (s.data.getD i []) rec) ∧
      s2.data.length = s.data.length ∧
      s2.map = s.map ∧ s2.added = s.added ∧ s2.updated = s.updated + 1 ∧
      (∀ j, j ≠ i → s2.data.getD j [] = s.data.getD j []) ∧
      (∀ k v, alGet rec k = some v → alGet (s2.data.getD i []) k = some v) ∧
      (∀ k, alGet rec k = none →
        alGet (s2.data.getD i []) k = alGet (s.data.getD i []) k) := by
  refine ⟨_, step_update s rec n i hn hi, rfl,
    List.length_set s.data i _, rfl, rfl, rfl, ?_, ?_, ?_⟩
  · intro j hj
    exact getD_set_ne s.data i j _ [] hj
  · intro k v hk
    rw [getD_set_self s.data i _ [] hlen, alGet_dictUpdate rec hrec, hk]
  · intro k hk
    rw [getD_set_self s.data i _ [] hlen, alGet_dictUpdate rec hrec, hk]

theorem C4_update_semantics_witness :
    ∃ s2, step (⟨[[("name", Value.str "b"), ("old", Value.int 1)]],
          [(Value.str "b", 0)], 0, 0⟩ : MState)
        [("name", Value.str "b"), ("new", Value.int 2)] = Except.ok s2 ∧
      s2.data = [[("name", Value.str "b"), ("old", Value.int 1)]].set 0
          (dictUpdate ([[("name", Value.str "b"), ("old", Value.int 1)]].getD 0 [])
            [("name", Value.str "b"), ("new", Value.int 2)]) ∧
      s2.data.length = 1 ∧
      s2.map = [(Value.str "b", 0)] ∧ s2.added = 0 ∧ s2.updated = 0 + 1 ∧
      (∀ j, j ≠ 0 → s2.data.getD j [] =
        [[("name", Value.str "b"), ("old", Value.int 1)]].getD j []) ∧
      (∀ k v, alGet [("name", Value.str "b"), ("new", Value.int 2)] k = some v →
        alGet (s2.data.getD 0 []) k = some v) ∧
      (∀ k, alGet [("name", Value.str "b"), ("new", Value.int 2)] k = none →
        alGet (s2.data.getD 0 []) k =
          alGet ([[("name", Value.str "b"), ("old", Value.int 1)]].getD 0 []) k) :=
  C4_update_semantics _ _ (Value.str "b") 0 (by decide) (by decide) (by decide) (by decide)

end GAIN

namespace GAIN

/-- C5: Addition semantics.  When an incoming record's name misses the map,
the loop step appends the record unmodified at the end of the list (so it sits
at the old length's index), registers its name at that index, bumps the
addition count and leaves the update count alone; and a concrete run mixing
one update with one addition reports `Added: 1, Updated: 1` with the new
record last. -/
theorem C5_addition_semantics (s : MState) (rec : Record) (n : Value)
    (hn : alGet rec "name" = some n) (hmiss : alGet s.map n = none) :
    (step s rec = Except.ok
        ⟨s.data ++ [rec], alSet s.map n s.data.length, s.added + 1, s.updated⟩ ∧
      (s.data ++ [rec]).getD s.data.length [] = rec) ∧
    merge_exercises
        ⟨some (Content.good [[("name", Value.str "a"), ("reps", Value.int 5)],
                             [("name", Value.str "b")]]),
         none,
         some (Content.good [[("name", Value.str "a"), ("reps", Value.int 10)],
                             [("name", Value.str "c")]])⟩ =
      (⟨some (Content.good [[("name", Value.str "a"), ("reps", Value.int 10)],
                            [("name", Value.str "b")],
                            [("name", Value.str "c")]]),
        some (Content.good [[("name", Value.str "a"), ("reps", Value.int 5)],
                            [("name", Value.str "b")]]),
        some (Content.good [[("name", Value.str "a"), ("reps", Value.int 10)],
                            [("name", Value.str "c")]])⟩,
       Report.ok 1 1) := by
  refine ⟨⟨?_, getD_append_len s.data rec []⟩, ?_⟩
  · rw [step_add s rec n hn hmiss]
  · rfl

theorem C5_addition_semantics_witness :
    (step (⟨[[("name", Value.str "a")]], [(Value.str "a", 0)], 0, 0⟩ : MState)
        [("name", Value.str "d")] = Except.ok
        ⟨[[("name", Value.str "a")]] ++ [[("name", Value.str "d")]],
         alSet [(Value.str "a", 0)] (Value.str "d") 1, 0 + 1, 0⟩ ∧
      ([[("name", Value.str "a")]] ++ [[("name", Value.str "d")]]).getD 1 [] =
        [("name", Value.str "d")]) ∧
    merge_exercises
        ⟨some (Content.good [[("name", Value.str "a"), ("reps", Value.int 5)],
                             [("name", Value.str "b")]]),
         none,
         some (Content.good [[("name", Value.str "a"), ("reps", Value.int 10)],
                             [("name", Value.str "c")]])⟩ =
      (⟨some (Content.good [[("name", Value.str "a"), ("reps", Value.int 10)],
                            [("name", Value.str "b")],
                            [("name", Value.str "c")]]),
        some (Content.good [[("name", Value.str "a"), ("reps", Value.int 5)],
                            [("name", Value.str "b")]]),
        some (Content.good [[("name", Value.str "a"), ("reps", Value.int 10)],
                            [("name", Value.str "c")]])⟩,
       Report.ok 1 1) :=
  C5_addition_semantics _ _ (Value.str "d") (by decide) (by decide)

/-- C7 (counterexample): the claim "for every run in which a primary store
existed before the run, after the run the backup artifact exists and holds the
pre-run primary contents" is false: a run whose incoming store is missing
aborts before the backup step, so no backup artifact is produced even though
the primary store existed beforehand. -/
theorem C7_backup_fidelity_counterexample :
    (⟨some (Content.good [[("name", Value.str "a")]]), none, none⟩ : FS).primary =
      some (Content.good [[("name", Value.str "a")]]) ∧
    (merge_exercises ⟨some (Content.good [[("name", Value.str "a")]]), none, none⟩).1.backup
      = none ∧
    (merge_exercises ⟨some (Content.good [[("name", Value.str "a")]]), none, none⟩).2 =
      Report.err "Error merging exercises: FileNotFoundError: new_exercises.json" :=
  ⟨rfl, rfl, rfl⟩

/-- C7 (amended): backup fidelity holds for every run that reaches the write,
i.e. every successful run: such a run had a pre-existing primary store, and
afterwards the backup artifact holds exactly that store's pre-run contents
(the contents immediately before this run's write). -/
theorem C7_backup_fidelity_on_success (fs fs2 : FS) (a u : Nat)
    (h : merge_exercises fs = (fs2, Report.ok a u)) :
    ∃ c, fs.primary = some c ∧ fs2.backup = some c := by
  obtain ⟨m, idata, s, c, _, _, _, hp, hfs2, _, _⟩ :=
    mergeInner_ok_inv fs fs2 a u (merge_ok_inv fs fs2 a u h)
  refine ⟨c, hp, ?_⟩
  rw [hfs2]

theorem C7_backup_fidelity_witness :
    ∃ c, (⟨some (Content.good [[("name", Value.str "a")]]), none,
            some (Content.good [])⟩ : FS).primary = some c ∧
      (⟨some (Content.good [[("name", Value.str "a")]]),
        some (Content.good [[("name", Value.str "a")]]),
        some (Content.good [])⟩ : FS).backup = some c :=
  C7_backup_fidelity_on_success
    ⟨some (Content.good [[("name", Value.str "a")]]), none, some (Content.good [])⟩
    ⟨some (Content.good [[("name", Value.str "a")]]),
      some (Content.good [[("name", Value.str "a")]]), some (Content.good [])⟩
    0 0 (by rfl)

/-- C8: Never throws past its boundary.  On every filesystem state the
operation returns a value: either success with the two counts, or the
top-level handler's formatted one-line error message. -/
theorem C8_never_throws (fs : FS) :
    (∃ a u, (merge_exercises fs).2 = Report.ok a u) ∨
    (∃ msg, (merge_exercises fs).2 =
      Report.err ("Error merging exercises: " ++ msg)) := by
  cases hmi : mergeInner fs with
  | ok x =>
    obtain ⟨fsx, ax, ux⟩ := x
    left
    exact ⟨ax, ux, by rw [merge_eq_of_ok fs fsx ax ux hmi]⟩
  | error e =>
    right
    exact ⟨e, by rw [merge_eq_of_error fs e hmi]⟩

/-- C9: A record without a `name` field, in the parsed primary list or among
the incoming records, makes the run abort with a reported error (the
`KeyError` caught by the top-level handler) before the backup and write steps,
leaving the filesystem untouched. -/
theorem C9_missing_name_aborts (fs : FS)
    (h : (∃ r ∈ parseOr fs.primary, alGet r "name" = none) ∨
         (∃ idata, fs.incoming = some (Content.good idata) ∧
            ∃ r ∈ idata, alGet r "name" = none)) :
    (merge_exercises fs).1 = fs ∧
    ∃ msg, (merge_exercises fs).2 = Report.err msg := by
  cases hmi : mergeInner fs with
  | error e =>
    rw [merge_eq_of_error fs e hmi]
    exact ⟨rfl, _, rfl⟩
  | ok x =>
    exfalso
    obtain ⟨fsx, ax, ux⟩ := x
    obtain ⟨m, idata2, s, c, hb, hin2, hrec, _, _, _, _⟩ :=
      mergeInner_ok_inv fs fsx ax ux hmi
    rcases h with ⟨r, hr, hrn⟩ | ⟨idata, hin, r, hr, hrn⟩
    · have h2 := buildMap_ok_names (parseOr fs.primary) m hb r hr
      rw [hrn] at h2
      simp at h2
    · rw [hin] at hin2
      have hEq : idata = idata2 := Content.good.inj (Option.some.inj hin2)
      have h2 := reconcile_ok_names idata2
        ⟨parseOr fs.primary, m, 0, 0⟩ s hrec r (hEq ▸ hr)
      rw [hrn] at h2
      simp at h2

theorem C9_missing_name_aborts_witness :
    (merge_exercises ⟨some (Content.good [[("sets", Value.int 3)]]), none,
        some (Content.good [])⟩).1 =
      ⟨some (Content.good [[("sets", Value.int 3)]]), none, some (Content.good [])⟩ ∧
    ∃ msg, (merge_exercises ⟨some (Content.good [[("sets", Value.int 3)]]), none,
        some (Content.good [])⟩).2 = Report.err msg :=
  C9_missing_name_aborts
    ⟨some (Content.good [[("sets", Value.int 3)]]), none, some (Content.good [])⟩
    (Or.inl ⟨[("sets", Value.int 3)], by decide, by decide⟩)

/-- C10: Duplicate names in the primary list resolve to the last occurrence:
the comprehension-built map sends the shared name to the last record carrying
it, so an incoming record with that name updates exactly that occurrence in
place; every other position — the earlier duplicates included — is unchanged,
the list keeps its length (all duplicates stay in the persisted output), and
the run counts one update and no addition. -/
theorem C10_duplicate_names_last_wins (fs : FS) (d : List Record) (rec : Record)
    (n : Value) (i j : Nat)
    (hp : fs.primary = some (Content.good d))
    (hinc : fs.incoming = some (Content.good [rec]))
    (hall : ∀ r ∈ d, (alGet r "name").isSome = true)
    (hj : j < i) (hi : i < d.length)
    (hnj : alGet (d.getD j []) "name" = some n)
    (hni : alGet (d.getD i []) "name" = some n)
    (hlast : ∀ l, i < l → l < d.length → ¬ alGet (d.getD l []) "name" = some n)
    (hrn : alGet rec "name" = some n) :
    merge_exercises fs =
      (⟨some (Content.good (d.set i (dictUpdate (d.getD i []) rec))),
        some (Content.good d), fs.incoming⟩, Report.ok 0 1) ∧
    (d.set i (dictUpdate (d.getD i []) rec)).getD j [] = d.getD j [] ∧
    (d.set i (dictUpdate (d.getD i []) rec)).length = d.length := by
  have hbm : buildMap d = Except.ok (buildMapT d 0 []) := buildMap_eq_ok d hall
  have hmap : alGet (buildMapT d 0 []) n = some i := by
    rw [alGet_buildMapT, lastIdxOf_of_last d n i hi hni hlast]
    show some (0 + i) = some i
    rw [Nat.zero_add]
  have hrec : reconcile ⟨d, buildMapT d 0 [], 0, 0⟩ [rec] =
      Except.ok ⟨d.set i (dictUpdate (d.getD i []) rec), buildMapT d 0 [], 0, 1⟩ := by
    rw [reconcile_cons, step_update4 d (buildMapT d 0 []) 0 0 rec n i hrn hmap]
    rfl
  have hM := mergeInner_ok_of fs d [rec] (d.set i (dictUpdate (d.getD i []) rec))
    (buildMapT d 0 []) (buildMapT d 0 []) 0 1 hp hbm hinc hrec
  refine ⟨?_, getD_set_ne d i j _ [] (by omega), List.length_set d i _⟩
  rw [merge_eq_of_ok fs _ 0 1 hM]

theorem C10_duplicate_names_witness :
    merge_exercises
        ⟨some (Content.good [[("name", Value.str "a"), ("k", Value.int 1)],
                             [("name", Value.str "a"), ("k", Value.int 2)]]),
         none,
         some (Content.good [[("name", Value.str "a"), ("k", Value.int 9)]])⟩ =
      (⟨some (Content.good
          ([[("name", Value.str "a"), ("k", Value.int 1)],
            [("name", Value.str "a"), ("k", Value.int 2)]].set 1
            (dictUpdate ([[("name", Value.str "a"), ("k", Value.int 1)],
                          [("name", Value.str "a"), ("k", Value.int 2)]].getD 1 [])
              [("name", Value.str "a"), ("k", Value.int 9)]))),
        some (Content.good [[("name", Value.str "a"), ("k", Value.int 1)],
                            [("name", Value.str "a"), ("k", Value.int 2)]]),
        some (Content.good [[("name", Value.str "a"), ("k", Value.int 9)]])⟩,
       Report.ok 0 1) ∧
    ([[("name", Value.str "a"), ("k", Value.int 1)],
      [("name", Value.str "a"), ("k", Value.int 2)]].set 1
      (dictUpdate ([[("name", Value.str "a"), ("k", Value.int 1)],
                    [("name", Value.str "a"), ("k", Value.int 2)]].getD 1 [])
        [("name", Value.str "a"), ("k", Value.int 9)])).getD 0 [] =
      [[("name", Value.str "a"), ("k", Value.int 1)],
       [("name", Value.str "a"), ("k", Value.int 2)]].getD 0 [] ∧
    ([[("name", Value.str "a"), ("k", Value.int 1)],
      [("name", Value.str "a"), ("k", Value.int 2)]].set 1
      (dictUpdate ([[("name", Value.str "a"), ("k", Value.int 1)],
                    [("name", Value.str "a"), ("k", Value.int 2)]].getD 1 [])
        [("name", Value.str "a"), ("k", Value.int 9)])).length = 2 :=
  C10_duplicate_names_last_wins
    ⟨some (Content.good [[("name", Value.str "a"), ("k", Value.int 1)],
                         [("name", Value.str "a"), ("k", Value.int 2)]]),
     none,
     some (Content.good [[("name", Value.str "a"), ("k", Value.int 9)]])⟩
    [[("name", Value.str "a"), ("k", Value.int 1)],
     [("name", Value.str "a"), ("k", Value.int 2)]]
    [("name", Value.str "a"), ("k", Value.int 9)]
    (Value.str "a") 1 0 rfl rfl (by decide) (by decide) (by decide)
    (by decide) (by decide) (by intro l h1 h2; simp at h2; omega) (by decide)

end GAIN

namespace GAIN

theorem C6_remerge_idempotence_witness :
    merge_exercises ⟨some (Content.good [[("name", Value.str "a")]]),
        some (Content.good []), some (Content.good [[("name", Value.str "a")]])⟩ =
      (⟨some (Content.good [[("name", Value.str "a")]]),
        some (Content.good [[("name", Value.str "a")]]),
        some (Content.good [[("name", Value.str "a")]])⟩, Report.ok 0 1) :=
  C6_remerge_idempotence
    ⟨some (Content.good []), none, some (Content.good [[("name", Value.str "a")]])⟩
    ⟨some (Content.good [[("name", Value.str "a")]]), some (Content.good []),
      some (Content.good [[("name", Value.str "a")]])⟩
    1 0 [[("name", Value.str "a")]]
    (by rfl) rfl
    (by intro d hd r hr
        rw [← Content.good.inj (Option.some.inj hd)] at hr
        simp at hr)
    (by decide)

end GAIN
